import Mathlib

/-!
Verification of the doubao-seed-translation proxy (go/main.go, edge-function.js).

This file shallowly embeds the streaming protocol adapter of the repository:
the SSE frame parser (`processBufferGo`), the delta reshaper and protocol
encoder (`processDelta`, `handleEvent`), usage mapping (`usageTotalTokens`
and friends), directive resolution (`applyLanguageOption`,
`mergeTranslationOverrides`, `getLanguageCode`) and the upstream error path
(`extractUpstreamError`, `formatUpstreamError`).  Byte/character strings are
modelled as `List Char`; JSON values already parsed by the host runtime are
modelled by the inductive `JVal`.
-/

namespace DoubaoProxy

/-! ## Delta Reshaper (go/main.go, streamDoubaoResponse delta case) -/

/-- Newline test used throughout the reshaper. -/
def isNL (c : Char) : Bool := c = '\n'

/-- Model of `strings.ReplaceAll(delta, "\r", "")`. -/
def stripCR (s : List Char) : List Char := s.filter (fun c => c ≠ '\r')

/-- Model of `countLeadingNewlines` from go/main.go: the length of the
leading run of newline characters. -/
def countLeadingNewlines : List Char → Nat
  | [] => 0
  | c :: rest => if c = '\n' then countLeadingNewlines rest + 1 else 0

/-- Model of `countTrailingNewlines` from go/main.go: the length of the
trailing run of newline characters (the Go loop walks from the end). -/
def countTrailingNewlines (s : List Char) : Nat := countLeadingNewlines s.reverse

/-- One write performed on the output sink by the streaming encoder.
`roleChunk` is the chunk with `delta:{role:"assistant"}` and null finish
reason; `contentChunk` carries `delta:{content:...}`; `terminalChunk`
carries `finish_reason:"stop"` and the optional usage triple
(prompt, completion, total); `doneMarker` is `data: [DONE]`. -/
inductive Write where
  | roleChunk : Write
  | contentChunk : List Char → Write
  | terminalChunk : Option (Int × Int × Int) → Write
  | doneMarker : Write
deriving DecidableEq, Repr

/-- The per-session mutable state of `streamDoubaoResponse`. -/
structure EncState where
  createdAt : Int
  sentRoleChunk : Bool
  closed : Bool
  bufferedNewlines : List Char
deriving DecidableEq, Repr

/-- Session state at stream start (`createdAt` from the local clock). -/
def initState (t : Int) : EncState :=
  { createdAt := t, sentRoleChunk := false, closed := false, bufferedNewlines := [] }

/-- The reshaping step of the delta case, for a delta that is not entirely
newlines: split off the leading and trailing newline runs, emit the pending
accumulator plus the leading run plus the core, and keep the trailing run
pending.  Mirrors lines 933-970 of go/main.go (`leadingNewlines`,
`trailingNewlines`, `contentStart`, `contentEnd` with its clamp, `emit`). -/
def reshapeEmit (buffered delta : List Char) : List Char × List Char :=
  let leading := countLeadingNewlines delta
  let trailing := countTrailingNewlines delta
  let contentStart := leading
  let contentEnd :=
    if delta.length - trailing < contentStart then contentStart
    else delta.length - trailing
  let core := (delta.drop contentStart).take (contentEnd - contentStart)
  (buffered ++ List.replicate leading '\n' ++ core, List.replicate trailing '\n')

/-- The `response.output_text.delta` case of `handleEvent` in go/main.go:
strip carriage returns, ignore an empty delta, announce the role on the
first non-empty delta, buffer a newline-only delta, otherwise emit one
reshaped content chunk.  (Setting `sentRoleChunk := true` unconditionally
is a no-op when it is already true, as in the Go code.) -/
def processDelta (st : EncState) (rawDelta : List Char) : EncState × List Write :=
  let delta := stripCR rawDelta
  if delta = [] then (st, [])
  else
    let roleWrites : List Write := if st.sentRoleChunk then [] else [Write.roleChunk]
    let st1 := { st with sentRoleChunk := true }
    if delta.all isNL then
      ({ st1 with bufferedNewlines := st1.bufferedNewlines ++ delta }, roleWrites)
    else
      let p := reshapeEmit st1.bufferedNewlines delta
      let writes := if p.1 = [] then roleWrites else roleWrites ++ [Write.contentChunk p.1]
      ({ st1 with bufferedNewlines := p.2 }, writes)

/-- Feed a finite sequence of raw delta payloads to one session. -/
def runDeltas (st : EncState) : List (List Char) → EncState × List Write
  | [] => (st, [])
  | d :: rest =>
      let p := processDelta st d
      let q := runDeltas p.1 rest
      (q.1, p.2 ++ q.2)

/-- The content strings of the emitted content chunks, in emission order. -/
def contentChunks (ws : List Write) : List (List Char) :=
  ws.filterMap fun w =>
    match w with
    | Write.contentChunk s => some s
    | _ => none

/-! ### Reshaper lemmas -/

lemma countLeading_cons_nl (rest : List Char) :
    countLeadingNewlines ('\n' :: rest) = countLeadingNewlines rest + 1 := by
  simp [countLeadingNewlines]

lemma countLeading_cons_other (c : Char) (rest : List Char) (hc : ¬ c = '\n') :
    countLeadingNewlines (c :: rest) = 0 := by
  simp [countLeadingNewlines, hc]

lemma countLeadingNewlines_eq_takeWhile (l : List Char) :
    countLeadingNewlines l = (l.takeWhile isNL).length := by
  induction l with
  | nil => rfl
  | cons c rest ih =>
    by_cases hc : c = '\n'
    · subst hc
      rw [countLeading_cons_nl]
      simp [List.takeWhile_cons, isNL, ih]
    · rw [countLeading_cons_other c rest hc]
      simp [List.takeWhile_cons, isNL, hc]

lemma takeWhile_isNL_eq_replicate (l : List Char) :
    l.takeWhile isNL = List.replicate (l.takeWhile isNL).length '\n' := by
  apply List.eq_replicate_of_mem
  intro b hb
  simpa [isNL] using List.mem_takeWhile_imp hb

lemma countLeadingNewlines_le (l : List Char) : countLeadingNewlines l ≤ l.length := by
  induction l with
  | nil => simp [countLeadingNewlines]
  | cons c rest ih =>
    by_cases hc : c = '\n'
    · subst hc
      rw [countLeading_cons_nl]
      simp only [List.length_cons]
      omega
    · rw [countLeading_cons_other c rest hc]
      simp

lemma countLeading_eq_length_iff (l : List Char) :
    countLeadingNewlines l = l.length ↔ l.all isNL = true := by
  induction l with
  | nil => simp [countLeadingNewlines]
  | cons c rest ih =>
    by_cases hc : c = '\n'
    · subst hc
      rw [countLeading_cons_nl]
      simp only [List.length_cons, List.all_cons]
      constructor
      · intro h
        have : countLeadingNewlines rest = rest.length := by omega
        simp [isNL, ih.mp this]
      · intro h
        have hrest : rest.all isNL = true := by simpa [isNL] using h
        have := ih.mpr hrest
        omega
    · rw [countLeading_cons_other c rest hc]
      have hle := countLeadingNewlines_le rest
      simp only [List.length_cons, List.all_cons]
      constructor
      · intro h
        omega
      · intro h
        exfalso
        have : isNL c = true := by
          have h2 := h
          simp only [Bool.and_eq_true] at h2
          exact h2.1
        simp [isNL, hc] at this

lemma countLeadingNewlines_append (a b : List Char) :
    countLeadingNewlines (a ++ b) =
      if a.all isNL then a.length + countLeadingNewlines b else countLeadingNewlines a := by
  induction a with
  | nil => simp [countLeadingNewlines]
  | cons c rest ih =>
    by_cases hc : c = '\n'
    · subst hc
      rw [List.cons_append, countLeading_cons_nl, countLeading_cons_nl, ih]
      by_cases hall : rest.all isNL = true
      · simp [hall, isNL]
        omega
      · simp only [Bool.not_eq_true] at hall
        simp [hall, isNL]
    · rw [List.cons_append, countLeading_cons_other c _ hc, countLeading_cons_other c rest hc]
      simp [isNL, hc]

lemma lead_add_trail_lt (l : List Char) (h : l.all isNL = false) :
    countLeadingNewlines l + countTrailingNewlines l < l.length := by
  induction l with
  | nil => simp at h
  | cons c rest ih =>
    by_cases hc : c = '\n'
    · have hrest : rest.all isNL = false := by simpa [isNL, hc] using h
      have h1 : countLeadingNewlines (c :: rest) = countLeadingNewlines rest + 1 := by
        simp [countLeadingNewlines, hc]
      have h2 : countTrailingNewlines (c :: rest) = countTrailingNewlines rest := by
        unfold countTrailingNewlines
        rw [List.reverse_cons, countLeadingNewlines_append]
        have hrev : (rest.reverse).all isNL = false := by simpa using hrest
        simp [hrev]
      have := ih hrest
      rw [h1, h2, List.length_cons]
      omega
    · have h1 : countLeadingNewlines (c :: rest) = 0 := by
        simp [countLeadingNewlines, hc]
      have h2 : countTrailingNewlines (c :: rest) < (c :: rest).length := by
        unfold countTrailingNewlines
        have hle := countLeadingNewlines_le (c :: rest).reverse
        rw [List.length_reverse] at hle
        rcases Nat.lt_or_ge (countLeadingNewlines (c :: rest).reverse) (c :: rest).length
          with hlt | hge
        · exact hlt
        · exfalso
          have heq : countLeadingNewlines (c :: rest).reverse = ((c :: rest).reverse).length := by
            rw [List.length_reverse]; omega
          have hall := (countLeading_eq_length_iff _).1 heq
          rw [List.all_reverse] at hall
          have hcNL := List.all_eq_true.mp hall c (by simp)
          simp [isNL, hc] at hcNL
      omega

lemma take_lead_eq (l : List Char) :
    l.take (countLeadingNewlines l) = List.replicate (countLeadingNewlines l) '\n' := by
  have hpre : l.takeWhile isNL <+: l := List.takeWhile_prefix isNL
  have htake : l.takeWhile isNL = l.take ((l.takeWhile isNL).length) :=
    List.prefix_iff_eq_take.mp hpre
  rw [countLeadingNewlines_eq_takeWhile, ← htake]
  exact takeWhile_isNL_eq_replicate l

lemma drop_trail_eq (l : List Char) :
    l.drop (l.length - countTrailingNewlines l)
      = List.replicate (countTrailingNewlines l) '\n' := by
  have h1 : l.reverse.take (countTrailingNewlines l)
      = List.replicate (countTrailingNewlines l) '\n' := take_lead_eq l.reverse
  rw [List.take_reverse] at h1
  have h2 := congrArg List.reverse h1
  simpa [List.reverse_replicate] using h2

lemma delta_decomposition (l : List Char) (h : l.all isNL = false) :
    List.replicate (countLeadingNewlines l) '\n'
      ++ ((l.drop (countLeadingNewlines l)).take
            (l.length - countTrailingNewlines l - countLeadingNewlines l)
          ++ List.replicate (countTrailingNewlines l) '\n') = l := by
  have hlt := lead_add_trail_lt l h
  have h1 : l.take (countLeadingNewlines l)
      = List.replicate (countLeadingNewlines l) '\n' := take_lead_eq l
  have h2 : l.drop (l.length - countTrailingNewlines l)
      = List.replicate (countTrailingNewlines l) '\n' := drop_trail_eq l
  have e2 : (l.drop (countLeadingNewlines l)).drop
      (l.length - countTrailingNewlines l - countLeadingNewlines l)
      = l.drop (l.length - countTrailingNewlines l) := by
    rw [List.drop_drop]
    congr 1
    omega
  calc List.replicate (countLeadingNewlines l) '\n'
      ++ ((l.drop (countLeadingNewlines l)).take
            (l.length - countTrailingNewlines l - countLeadingNewlines l)
          ++ List.replicate (countTrailingNewlines l) '\n')
      = l.take (countLeadingNewlines l)
        ++ ((l.drop (countLeadingNewlines l)).take
              (l.length - countTrailingNewlines l - countLeadingNewlines l)
            ++ (l.drop (countLeadingNewlines l)).drop
              (l.length - countTrailingNewlines l - countLeadingNewlines l)) := by
        rw [h1, e2, h2]
    _ = l.take (countLeadingNewlines l) ++ l.drop (countLeadingNewlines l) := by
        rw [List.take_append_drop]
    _ = l := List.take_append_drop _ _

lemma reshapeEmit_parts (buffered l : List Char) (h : l.all isNL = false) :
    (reshapeEmit buffered l).1
        = buffered ++ List.replicate (countLeadingNewlines l) '\n'
            ++ (l.drop (countLeadingNewlines l)).take
                (l.length - countTrailingNewlines l - countLeadingNewlines l)
      ∧ (reshapeEmit buffered l).2 = List.replicate (countTrailingNewlines l) '\n' := by
  have hlt := lead_add_trail_lt l h
  have hcond : ¬ (l.length - countTrailingNewlines l < countLeadingNewlines l) := by omega
  have hend : (if l.length - countTrailingNewlines l < countLeadingNewlines l
      then countLeadingNewlines l else l.length - countTrailingNewlines l)
      = l.length - countTrailingNewlines l := if_neg hcond
  constructor
  · show buffered ++ List.replicate (countLeadingNewlines l) '\n'
        ++ (l.drop (countLeadingNewlines l)).take
          ((if l.length - countTrailingNewlines l < countLeadingNewlines l
            then countLeadingNewlines l else l.length - countTrailingNewlines l)
            - countLeadingNewlines l)
      = _
    rw [hend]
  · rfl

lemma reshapeEmit_join (buffered l : List Char) (h : l.all isNL = false) :
    (reshapeEmit buffered l).1 ++ (reshapeEmit buffered l).2 = buffered ++ l := by
  obtain ⟨h1, h2⟩ := reshapeEmit_parts buffered l h
  rw [h1, h2, List.append_assoc, List.append_assoc, delta_decomposition l h]

lemma core_not_all_nl (l : List Char) (h : l.all isNL = false) :
    ((l.drop (countLeadingNewlines l)).take
        (l.length - countTrailingNewlines l - countLeadingNewlines l)).all isNL = false := by
  by_contra hcontra
  rw [Bool.not_eq_false] at hcontra
  have hdec := delta_decomposition l h
  have : l.all isNL = true := by
    rw [← hdec]
    simp only [List.all_append, hcontra, Bool.and_eq_true]
    refine ⟨?_, ?_, ?_⟩ <;> simp [isNL]
  rw [h] at this
  exact Bool.false_ne_true this

lemma reshapeEmit_fst_not_all_nl (buffered l : List Char) (h : l.all isNL = false) :
    (reshapeEmit buffered l).1.all isNL = false := by
  obtain ⟨h1, _⟩ := reshapeEmit_parts buffered l h
  rw [h1]
  simp only [List.all_append, Bool.and_eq_false_iff]
  exact Or.inr (core_not_all_nl l h)

lemma reshapeEmit_fst_ne_nil (buffered l : List Char) (h : l.all isNL = false) :
    (reshapeEmit buffered l).1 ≠ [] := by
  intro hnil
  have := reshapeEmit_fst_not_all_nl buffered l h
  rw [hnil] at this
  simp at this

/-- Unfolding of `processDelta` on a delta whose stripped form is empty. -/
lemma processDelta_empty (st : EncState) (d : List Char) (h : stripCR d = []) :
    processDelta st d = (st, []) := by
  unfold processDelta
  rw [h]
  simp

/-- Unfolding of `processDelta` on a newline-only stripped delta. -/
lemma processDelta_all_nl (st : EncState) (d : List Char) (hne : stripCR d ≠ [])
    (hall : (stripCR d).all isNL = true) :
    processDelta st d =
      ({ st with
          sentRoleChunk := true,
          bufferedNewlines := st.bufferedNewlines ++ stripCR d },
       if st.sentRoleChunk then [] else [Write.roleChunk]) := by
  unfold processDelta
  rw [if_neg hne, if_pos hall]

/-- Unfolding of `processDelta` on a delta with a non-newline character. -/
lemma processDelta_core (st : EncState) (d : List Char) (hne : stripCR d ≠ [])
    (hall : (stripCR d).all isNL = false) :
    processDelta st d =
      ({ st with
          sentRoleChunk := true,
          bufferedNewlines := (reshapeEmit st.bufferedNewlines (stripCR d)).2 },
       (if st.sentRoleChunk then [] else [Write.roleChunk])
         ++ [Write.contentChunk (reshapeEmit st.bufferedNewlines (stripCR d)).1]) := by
  unfold processDelta
  rw [if_neg hne]
  have hfst := reshapeEmit_fst_ne_nil st.bufferedNewlines (stripCR d) hall
  simp only [hall, Bool.false_eq_true, if_false]
  rw [if_neg hfst]

lemma contentChunks_append (a b : List Write) :
    contentChunks (a ++ b) = contentChunks a ++ contentChunks b := by
  unfold contentChunks
  exact List.filterMap_append a b _

lemma contentChunks_roleWrites (st : EncState) :
    contentChunks (if st.sentRoleChunk then [] else [Write.roleChunk]) = [] := by
  by_cases h : st.sentRoleChunk <;> simp [h, contentChunks]

lemma processDelta_content (st : EncState) (d : List Char) :
    (contentChunks (processDelta st d).2).flatten ++ (processDelta st d).1.bufferedNewlines
      = st.bufferedNewlines ++ stripCR d := by
  by_cases hne : stripCR d = []
  · rw [processDelta_empty st d hne, hne]
    simp [contentChunks]
  · by_cases hall : (stripCR d).all isNL = true
    · rw [processDelta_all_nl st d hne hall]
      simp only [contentChunks_roleWrites]
      simp
    · rw [Bool.not_eq_true] at hall
      rw [processDelta_core st d hne hall]
      simp only [contentChunks_append, contentChunks_roleWrites]
      simp only [contentChunks, List.filterMap_cons, List.filterMap_nil]
      simp only [List.nil_append, List.flatten]
      rw [List.append_nil, reshapeEmit_join st.bufferedNewlines (stripCR d) hall]

lemma runDeltas_cons (st : EncState) (d : List Char) (rest : List (List Char)) :
    runDeltas st (d :: rest)
      = ((runDeltas (processDelta st d).1 rest).1,
         (processDelta st d).2 ++ (runDeltas (processDelta st d).1 rest).2) := rfl

lemma runDeltas_content (st : EncState) (ds : List (List Char)) :
    (contentChunks (runDeltas st ds).2).flatten ++ (runDeltas st ds).1.bufferedNewlines
      = st.bufferedNewlines ++ (ds.map stripCR).flatten := by
  induction ds generalizing st with
  | nil => simp [runDeltas, contentChunks]
  | cons d rest ih =>
    rw [runDeltas_cons]
    simp only [contentChunks_append, List.flatten_append, List.map_cons, List.flatten_cons]
    rw [List.append_assoc, ih (processDelta st d).1, ← List.append_assoc,
      processDelta_content st d, List.append_assoc]

/-- C1.  Delta Reshaper content preservation: over one streaming session,
the concatenation of all emitted content chunks, followed by the pending
newline accumulator left at stream end (which the code discards), equals
the concatenation of the incoming delta payloads with every carriage
return removed. -/
theorem C1_content_preservation (ds : List (List Char)) :
    (contentChunks (runDeltas (initState 0) ds).2).flatten
        ++ (runDeltas (initState 0) ds).1.bufferedNewlines
      = (ds.map stripCR).flatten := by
  have h := runDeltas_content (initState 0) ds
  simpa [initState] using h

lemma processDelta_chunks_valid (st : EncState) (d c : List Char)
    (hc : c ∈ contentChunks (processDelta st d).2) : c.all isNL = false := by
  by_cases hne : stripCR d = []
  · rw [processDelta_empty st d hne] at hc
    simp [contentChunks] at hc
  · by_cases hall : (stripCR d).all isNL = true
    · rw [processDelta_all_nl st d hne hall] at hc
      rw [contentChunks_roleWrites st] at hc
      simp at hc
    · rw [Bool.not_eq_true] at hall
      rw [processDelta_core st d hne hall] at hc
      rw [contentChunks_append, contentChunks_roleWrites st] at hc
      simp only [contentChunks, List.filterMap_cons, List.filterMap_nil, List.nil_append,
        List.mem_singleton] at hc
      rw [hc]
      exact reshapeEmit_fst_not_all_nl st.bufferedNewlines (stripCR d) hall

lemma runDeltas_chunks_valid (st : EncState) (ds : List (List Char)) (c : List Char)
    (hc : c ∈ contentChunks (runDeltas st ds).2) : c.all isNL = false := by
  induction ds generalizing st with
  | nil => simp [runDeltas, contentChunks] at hc
  | cons d rest ih =>
    rw [runDeltas_cons, contentChunks_append] at hc
    rcases List.mem_append.mp hc with h | h
    · exact processDelta_chunks_valid st d c h
    · exact ih _ h

/-- C2.  Delta Reshaper chunk validity: every emitted content chunk
contains at least one non-newline character; in particular no content
chunk is empty or newline-only.  (Together with C1, the only whitespace
ever dropped is the final pending accumulator.) -/
theorem C2_chunk_validity (ds : List (List Char)) (c : List Char)
    (hc : c ∈ contentChunks (runDeltas (initState 0) ds).2) :
    c ≠ [] ∧ c.all isNL = false := by
  have hv := runDeltas_chunks_valid (initState 0) ds c hc
  refine ⟨?_, hv⟩
  intro hnil
  rw [hnil] at hv
  simp at hv

/-- Witness for C2 at the concrete session `["Hi"]`. -/
theorem C2_chunk_validity_witness :
    (['H', 'i'] : List Char) ≠ [] ∧ (['H', 'i'] : List Char).all isNL = false :=
  C2_chunk_validity [['H', 'i']] ['H', 'i'] (by decide)

/-! ### Scenario C (claim C3) -/

/-- The streaming deltas of Scenario C in the spec. -/
def scenarioCDeltas : List (List Char) :=
  ["\n".data, "\n\nHello".data, " world\n".data]

/-- C3 counterexample: feeding `["\n", "\n\nHello", " world\n"]` does not
produce the chunks `"\n\nHello"`, `" world"` claimed by Scenario C — the
newline buffered from the first delta is prepended, so the first chunk
carries three leading newlines. -/
theorem C3_counterexample :
    contentChunks (runDeltas (initState 0) scenarioCDeltas).2
      ≠ ["\n\nHello".data, " world".data] := by decide

/-- C3 amended: the session emits the role chunk, then content chunks
exactly `"\n\n\nHello"` and `" world"`, and the trailing `"\n"` of the
last delta is left pending (and discarded at stream end). -/
theorem C3_amended :
    (runDeltas (initState 0) scenarioCDeltas).2
      = [Write.roleChunk, Write.contentChunk "\n\n\nHello".data,
         Write.contentChunk " world".data]
    ∧ (runDeltas (initState 0) scenarioCDeltas).1.bufferedNewlines = "\n".data := by
  decide

/-! ### Role announcement (claim C9) -/

/-- Recognizer for the role-announcement chunk. -/
def isRoleWrite : Write → Bool
  | Write.roleChunk => true
  | _ => false

lemma processDelta_sentRole (st : EncState) (d : List Char) :
    (processDelta st d).1.sentRoleChunk
      = (if stripCR d = [] then st.sentRoleChunk else true) := by
  by_cases hne : stripCR d = []
  · rw [processDelta_empty st d hne, if_pos hne]
  · rw [if_neg hne]
    by_cases hall : (stripCR d).all isNL = true
    · rw [processDelta_all_nl st d hne hall]
    · rw [Bool.not_eq_true] at hall
      rw [processDelta_core st d hne hall]

lemma processDelta_role_count_sent (st : EncState) (d : List Char)
    (h : st.sentRoleChunk = true) :
    (processDelta st d).2.countP isRoleWrite = 0 := by
  by_cases hne : stripCR d = []
  · rw [processDelta_empty st d hne]
    rfl
  · by_cases hall : (stripCR d).all isNL = true
    · rw [processDelta_all_nl st d hne hall]
      simp [h]
    · rw [Bool.not_eq_true] at hall
      rw [processDelta_core st d hne hall]
      simp [h, List.countP_cons, isRoleWrite]

lemma runDeltas_role_count_sent (st : EncState) (ds : List (List Char))
    (h : st.sentRoleChunk = true) :
    (runDeltas st ds).2.countP isRoleWrite = 0 := by
  induction ds generalizing st with
  | nil => rfl
  | cons d rest ih =>
    rw [runDeltas_cons]
    simp only [List.countP_append]
    have hsent : (processDelta st d).1.sentRoleChunk = true := by
      rw [processDelta_sentRole]
      by_cases hne : stripCR d = [] <;> simp [hne, h]
    rw [processDelta_role_count_sent st d h, ih _ hsent]

lemma processDelta_role_first (st : EncState) (d : List Char)
    (h : st.sentRoleChunk = false) (hne : stripCR d ≠ []) :
    ∃ ws, (processDelta st d).2 = Write.roleChunk :: ws
      ∧ ws.countP isRoleWrite = 0 := by
  by_cases hall : (stripCR d).all isNL = true
  · rw [processDelta_all_nl st d hne hall]
    exact ⟨[], by simp [h], rfl⟩
  · rw [Bool.not_eq_true] at hall
    rw [processDelta_core st d hne hall]
    refine ⟨[Write.contentChunk (reshapeEmit st.bufferedNewlines (stripCR d)).1], ?_, ?_⟩
    · simp [h]
    · simp [List.countP_cons, isRoleWrite]

lemma runDeltas_role_structure (ds : List (List Char)) :
    ∀ st : EncState, st.sentRoleChunk = false →
      ((∃ d ∈ ds, stripCR d ≠ []) →
          (runDeltas st ds).2.head? = some Write.roleChunk
            ∧ (runDeltas st ds).2.countP isRoleWrite = 1)
        ∧ ((∀ d ∈ ds, stripCR d = []) → (runDeltas st ds).2 = []) := by
  induction ds with
  | nil =>
    intro st _
    constructor
    · rintro ⟨d, hd, _⟩
      simp at hd
    · intro
      rfl
  | cons d rest ih =>
    intro st h
    by_cases hne : stripCR d = []
    · rw [runDeltas_cons, processDelta_empty st d hne]
      constructor
      · rintro ⟨e, he, hene⟩
        have hex : ∃ e ∈ rest, stripCR e ≠ [] := by
          rcases List.mem_cons.mp he with rfl | hmem
          · exact absurd hne hene
          · exact ⟨e, hmem, hene⟩
        have := (ih st h).1 hex
        simpa using this
      · intro hall
        have := (ih st h).2 (fun e he => hall e (List.mem_cons_of_mem d he))
        simpa using this
    · obtain ⟨ws, hws, hcnt⟩ := processDelta_role_first st d h hne
      have hsent : (processDelta st d).1.sentRoleChunk = true := by
        rw [processDelta_sentRole, if_neg hne]
      rw [runDeltas_cons]
      constructor
      · intro _
        have h0 := runDeltas_role_count_sent (processDelta st d).1 rest hsent
        constructor
        · simp [hws]
        · simp [hws, List.countP_append, List.countP_cons, isRoleWrite, hcnt, h0]
      · intro hall
        exact absurd (hall d (List.mem_cons_self d rest)) hne

/-- C9 counterexample: a session whose only delta is `"\n"` contains no
content-bearing delta (no non-newline character anywhere), yet the code
emits the role-announcement chunk — the trigger is the first *non-empty*
delta, not the first *content-bearing* one. -/
theorem C9_counterexample :
    (∀ d ∈ [['\n']], (stripCR d).all isNL = true)
    ∧ (runDeltas (initState 0) [['\n']]).2 = [Write.roleChunk] := by decide

/-- C9 amended: the first delta that is non-empty after carriage-return
stripping (content-bearing or not) triggers the role-announcement chunk;
it is the first chunk of the session, is emitted at most once, and no
chunk at all is emitted while every delta strips to empty. -/
theorem C9_amended (ds : List (List Char)) :
    ((∃ d ∈ ds, stripCR d ≠ []) →
        (runDeltas (initState 0) ds).2.head? = some Write.roleChunk)
    ∧ ((∀ d ∈ ds, stripCR d = []) → (runDeltas (initState 0) ds).2 = [])
    ∧ (runDeltas (initState 0) ds).2.countP isRoleWrite ≤ 1 := by
  have hstruct := runDeltas_role_structure ds (initState 0) rfl
  refine ⟨fun hex => (hstruct.1 hex).1, hstruct.2, ?_⟩
  by_cases hex : ∃ d ∈ ds, stripCR d ≠ []
  · rw [(hstruct.1 hex).2]
  · have hall : ∀ d ∈ ds, stripCR d = [] := by
      intro d hd
      by_contra hne
      exact hex ⟨d, hd, hne⟩
    rw [hstruct.2 hall]
    simp

/-- Witness for C9 at the concrete session `["Hi"]`. -/
theorem C9_amended_witness :
    (runDeltas (initState 0) [['H', 'i']]).2.head? = some Write.roleChunk
    ∧ (runDeltas (initState 0) [['H', 'i']]).2.countP isRoleWrite ≤ 1 :=
  ⟨(C9_amended [['H', 'i']]).1 ⟨['H', 'i'], by decide, by decide⟩,
   (C9_amended [['H', 'i']]).2.2⟩

/-! ## Protocol Encoder events (go/main.go, streamDoubaoResponse handleEvent) -/

/-- The usage object carried by a `response.completed` event: the
`response.usage` map with its three optional integer fields.  A field
missing from the map reads as Go `nil`, which `intFromInterface` maps
to 0. -/
structure StreamUsage where
  inputTokens : Option Int
  outputTokens : Option Int
  totalTokens : Option Int
deriving DecidableEq, Repr

/-- Model of `intFromInterface` applied to an optional JSON number. -/
def intFromInterface : Option Int → Int
  | some n => n
  | none => 0

/-- One upstream SSE event as dispatched by `handleEvent` in go/main.go:
empty payload (ignored), the literal `[DONE]`, a payload that fails JSON
parsing (logged and dropped), `response.created` with its optional
`created_at`, `response.output_text.delta` with its delta string,
`response.completed` with its optional usage map, or any other event
name (ignored). -/
inductive Event where
  | emptyData : Event
  | doneData : Event
  | badJson : Event
  | created : Option Int → Event
  | delta : List Char → Event
  | completed : Option StreamUsage → Event
  | unrecognized : Event
deriving DecidableEq, Repr

/-- Model of the `enqueueDone` closure: write the `[DONE]` marker unless
the session is already closed, then mark it closed.  (The `enqueue`
closure, in contrast, writes unconditionally; write errors on the sink
are not modelled, so `closed` is set only here.) -/
def enqueueDone (st : EncState) : EncState × List Write :=
  if st.closed then (st, [])
  else ({ st with closed := true }, [Write.doneMarker])

/-- Model of `handleEvent` from go/main.go: the full event dispatch of the
streaming encoder.  The `completed` case clears the pending newline
accumulator, writes the terminal chunk (unconditionally — `enqueue` does
not consult `closed`), then runs `enqueueDone`. -/
def handleEvent (st : EncState) (e : Event) : EncState × List Write :=
  match e with
  | Event.emptyData => (st, [])
  | Event.doneData => enqueueDone st
  | Event.badJson => (st, [])
  | Event.created ts =>
      match ts with
      | some t => ({ st with createdAt := t }, [])
      | none => (st, [])
  | Event.delta d => processDelta st d
  | Event.completed usage =>
      let u := usage.map (fun m =>
        (intFromInterface m.inputTokens, intFromInterface m.outputTokens,
         intFromInterface m.totalTokens))
      let st1 := { st with bufferedNewlines := [] }
      let done := enqueueDone st1
      (done.1, Write.terminalChunk u :: done.2)
  | Event.unrecognized => (st, [])

/-- Feed a sequence of parsed events to one session. -/
def runEvents (st : EncState) : List Event → EncState × List Write
  | [] => (st, [])
  | e :: rest =>
      let p := handleEvent st e
      let q := runEvents p.1 rest
      (q.1, p.2 ++ q.2)

/-- Holds (as `true`) when no write follows the first `[DONE]` marker in
the write sequence: the stream terminator, once emitted, is the last
write. -/
def noWritesAfterDone : List Write → Bool
  | [] => true
  | Write.doneMarker :: rest => rest.isEmpty
  | _ :: rest => noWritesAfterDone rest

lemma processDelta_closed (st : EncState) (d : List Char) :
    (processDelta st d).1.closed = st.closed := by
  by_cases hne : stripCR d = []
  · rw [processDelta_empty st d hne]
  · by_cases hall : (stripCR d).all isNL = true
    · rw [processDelta_all_nl st d hne hall]
    · rw [Bool.not_eq_true] at hall
      rw [processDelta_core st d hne hall]

/-- C5 counterexample: after the `[DONE]` terminator has been written, a
further `response.output_text.delta` event still writes a role chunk and a
content chunk to the sink — the terminator is not the last write. -/
theorem C5_counterexample :
    noWritesAfterDone
        (runEvents (initState 0) [Event.doneData, Event.delta "Hello".data]).2 = false
    ∧ (runEvents (initState 0) [Event.doneData, Event.delta "Hello".data]).2
      = [Write.doneMarker, Write.roleChunk, Write.contentChunk "Hello".data] := by
  decide

/-- C5 amended: `closed` is monotone (no event reopens the session) and a
`[DONE]` payload arriving once the session is closed writes nothing; but
other events (deltas, completed) are still processed and may write. -/
theorem C5_amended (st : EncState) (e : Event) (h : st.closed = true) :
    (handleEvent st e).1.closed = true
    ∧ (e = Event.doneData → (handleEvent st e).2 = []) := by
  constructor
  · cases e with
    | emptyData => exact h
    | doneData => simp [handleEvent, enqueueDone, h]
    | badJson => exact h
    | created ts => cases ts <;> simp [handleEvent, h]
    | delta d =>
        have := processDelta_closed st d
        simp only [handleEvent]
        rw [this]
        exact h
    | completed usage => simp [handleEvent, enqueueDone, h]
    | unrecognized => exact h
  · intro he
    subst he
    simp [handleEvent, enqueueDone, h]

/-- Witness for C5 amended: a closed session ignores a second `[DONE]`. -/
theorem C5_amended_witness :
    (handleEvent ⟨0, true, true, []⟩ Event.doneData).1.closed = true
    ∧ (Event.doneData = Event.doneData →
        (handleEvent ⟨0, true, true, []⟩ Event.doneData).2 = []) :=
  C5_amended ⟨0, true, true, []⟩ Event.doneData rfl

/-! ## Usage mapping (go/main.go) -/

/-- The decoded upstream usage struct `doubaoUsage`.  A field absent from
the JSON body decodes to 0 in Go, so "the upstream omits the field" is
modelled as the field being 0. -/
structure DoubaoUsage where
  inputTokens : Int
  outputTokens : Int
  totalTokens : Int
  promptTokens : Int
  completionTokens : Int
deriving DecidableEq, Repr

/-- Model of `usageInputTokens`. -/
def usageInputTokens : Option DoubaoUsage → Int
  | none => 0
  | some u => u.inputTokens

/-- Model of `usageOutputTokens`. -/
def usageOutputTokens : Option DoubaoUsage → Int
  | none => 0
  | some u => u.outputTokens

/-- Model of `usageTotalTokens` (non-streaming chat completion shape). -/
def usageTotalTokens : Option DoubaoUsage → Int
  | none => 0
  | some u => if u.totalTokens ≠ 0 then u.totalTokens else u.inputTokens + u.outputTokens

/-- Model of `usagePromptTokens` (responses passthrough shape). -/
def usagePromptTokens : Option DoubaoUsage → Int
  | none => 0
  | some u => if u.promptTokens ≠ 0 then u.promptTokens else u.inputTokens

/-- Model of `usageCompletionTokens` (responses passthrough shape). -/
def usageCompletionTokens : Option DoubaoUsage → Int
  | none => 0
  | some u => if u.completionTokens ≠ 0 then u.completionTokens else u.outputTokens

/-- Model of `usageTotalFromUsage` (responses passthrough shape). -/
def usageTotalFromUsage : Option DoubaoUsage → Int
  | none => 0
  | some u => if u.totalTokens ≠ 0 then u.totalTokens else u.inputTokens + u.outputTokens

/-- C4 counterexample: (a) in the streaming terminal chunk an omitted
total-token field is reported as 0, not as prompt+completion (5+7=12);
(b) in the responses passthrough shape with the legacy field scheme
(prompt/completion tokens set, input/output zero) the omitted total is
reported as 0 while the reported prompt+completion is 12. -/
theorem C4_counterexample :
    ((handleEvent (initState 0) (Event.completed (some ⟨some 5, some 7, none⟩))).2
        = [Write.terminalChunk (some (5, 7, 0)), Write.doneMarker])
    ∧ usageTotalFromUsage (some ⟨0, 0, 0, 5, 7⟩) = 0
    ∧ usagePromptTokens (some ⟨0, 0, 0, 5, 7⟩)
        + usageCompletionTokens (some ⟨0, 0, 0, 5, 7⟩) = 12
    ∧ ((0 : Int) ≠ 5 + 7) := by decide

/-- C4 amended: the prompt+completion default applies only to the two
non-streaming shapes and only in terms of the upstream input/output
token fields; the streaming terminal chunk performs no defaulting at all
and reports an omitted total as 0. -/
theorem C4_amended :
    (∀ u : DoubaoUsage, u.totalTokens = 0 →
        usageTotalTokens (some u)
          = usageInputTokens (some u) + usageOutputTokens (some u))
    ∧ (∀ u : DoubaoUsage, u.totalTokens = 0 →
        usageTotalFromUsage (some u) = u.inputTokens + u.outputTokens)
    ∧ (∀ i o : Int,
        (handleEvent (initState 0) (Event.completed (some ⟨some i, some o, none⟩))).2
          = [Write.terminalChunk (some (i, o, 0)), Write.doneMarker]) := by
  refine ⟨?_, ?_, ?_⟩
  · intro u h
    simp [usageTotalTokens, usageInputTokens, usageOutputTokens, h]
  · intro u h
    simp [usageTotalFromUsage, h]
  · intro i o
    simp [handleEvent, enqueueDone, initState, intFromInterface]

/-- Witness for C4 amended at a concrete usage value. -/
theorem C4_amended_witness :
    usageTotalTokens (some ⟨3, 4, 0, 0, 0⟩)
      = usageInputTokens (some ⟨3, 4, 0, 0, 0⟩)
        + usageOutputTokens (some ⟨3, 4, 0, 0, 0⟩) :=
  C4_amended.1 ⟨3, 4, 0, 0, 0⟩ rfl

/-! ## SSE Frame Parser (go/main.go processBuffer, edge-function.js processBuffer) -/

/-- One parsed SSE frame: event name and rejoined data payload. -/
structure Frame where
  eventName : List Char
  dataStr : List Char
deriving DecidableEq, Repr

/-- Go whitespace test (`unicode.IsSpace` restricted to ASCII):
space, tab, newline, vertical tab, form feed, carriage return. -/
def isSpaceGo (c : Char) : Bool :=
  c = ' ' || c = '\t' || c = '\n' || c.toNat = 11 || c.toNat = 12 || c = '\r'

/-- Model of `strings.TrimSpace`. -/
def trimSpaceL (s : List Char) : List Char :=
  ((s.dropWhile isSpaceGo).reverse.dropWhile isSpaceGo).reverse

/-- First index at which the two-character delimiter `"\n\n"` begins:
the model of `strings.Index(current, "\n\n")`. -/
def indexOfNN : List Char → Option Nat
  | [] => none
  | c :: rest =>
      if c = '\n' ∧ rest.head? = some '\n' then some 0
      else (indexOfNN rest).map (· + 1)

lemma indexOfNN_bound {l : List Char} {i : Nat} (h : indexOfNN l = some i) :
    i + 2 ≤ l.length := by
  induction l generalizing i with
  | nil => simp [indexOfNN] at h
  | cons c rest ih =>
    rw [indexOfNN] at h
    by_cases hc : c = '\n' ∧ rest.head? = some '\n'
    · rw [if_pos hc] at h
      have hi : i = 0 := by simpa using h.symm
      subst hi
      cases rest with
      | nil => simp at hc
      | cons c2 rest2 => simp
    · rw [if_neg hc] at h
      cases hrest : indexOfNN rest with
      | none => rw [hrest] at h; simp at h
      | some j =>
          rw [hrest] at h
          simp at h
          have := ih hrest
          simp only [List.length_cons]
          omega

/-- The line marker `"event:"`. -/
def eventTag : List Char := "event:".data

/-- The line marker `"data:"`. -/
def dataTag : List Char := "data:".data

/-- Model of `strings.Split(rawEvent, "\n")`. -/
def splitOnNL : List Char → List (List Char)
  | [] => [[]]
  | c :: rest =>
      if c = '\n' then [] :: splitOnNL rest
      else
        match splitOnNL rest with
        | [] => [[c]]
        | l :: ls => (c :: l) :: ls

/-- Parse one raw frame segment: split it into lines; an `event:` line
sets the event name (trimmed), a `data:` line appends its trimmed payload;
the data lines are rejoined with `"\n"`.  Mirrors the per-segment loop of
`processBuffer` in go/main.go. -/
def parseSegment (rawEvent : List Char) : Frame :=
  let step := fun (acc : List Char × List (List Char)) (line : List Char) =>
    if eventTag.isPrefixOf line then (trimSpaceL (line.drop 6), acc.2)
    else if dataTag.isPrefixOf line then (acc.1, acc.2 ++ [trimSpaceL (line.drop 5)])
    else acc
  let r := (splitOnNL rawEvent).foldl step ([], [])
  ⟨r.1, List.intercalate ['\n'] r.2⟩

/-- Fuel-indexed model of the Go `processBuffer` loop (the fuel makes the
recursion structural; `processBufferGo` instantiates it with enough fuel).
Each iteration finds `"\n\n"` in the raw buffer, cuts the segment before
it, removes every `'\r'` inside that segment, skips whitespace-only
segments and parses the rest; it returns the produced frames and the
remaining (incomplete) buffer. -/
def processBufferFuel : Nat → List Char → List Frame × List Char
  | 0, buf => ([], buf)
  | fuel + 1, buf =>
      match indexOfNN buf with
      | none => ([], buf)
      | some idx =>
          let rawEvent := (buf.take idx).filter (fun c => c ≠ '\r')
          let rest := processBufferFuel fuel (buf.drop (idx + 2))
          if trimSpaceL rawEvent = [] then rest
          else (parseSegment rawEvent :: rest.1, rest.2)

/-- Model of one call to `processBuffer` in go/main.go.  Every iteration
consumes at least two characters, so `buf.length` is enough fuel. -/
def processBufferGo (buf : List Char) : List Frame × List Char :=
  processBufferFuel buf.length buf

lemma processBufferFuel_congr :
    ∀ (f : Nat) (buf : List Char), buf.length ≤ f →
      processBufferFuel f buf = processBufferGo buf := by
  intro f
  induction f using Nat.strong_induction_on with
  | _ f ih =>
    intro buf hlen
    unfold processBufferGo
    cases hf : f with
    | zero =>
        have : buf.length = 0 := by omega
        rw [this]
    | succ f1 =>
        cases hn : indexOfNN buf with
        | none =>
            cases hl : buf.length with
            | zero => simp [processBufferFuel, hn, hl]
            | succ m => simp [processBufferFuel, hn, hl]
        | some idx =>
            have hb := indexOfNN_bound hn
            have hl : ∃ m, buf.length = m + 1 := ⟨buf.length - 1, by omega⟩
            obtain ⟨m, hm⟩ := hl
            rw [hm]
            simp only [processBufferFuel, hn]
            have hdroplen : (buf.drop (idx + 2)).length = buf.length - (idx + 2) := by
              simp
            have h1 : processBufferFuel f1 (buf.drop (idx + 2))
                = processBufferGo (buf.drop (idx + 2)) := by
              apply ih f1 (by omega)
              omega
            have h2 : processBufferFuel m (buf.drop (idx + 2))
                = processBufferGo (buf.drop (idx + 2)) := by
              apply ih m (by omega)
              omega
            rw [h1, h2]

/-- Unfolding of `processBufferGo` when the buffer holds no delimiter. -/
lemma processBufferGo_none {buf : List Char} (h : indexOfNN buf = none) :
    processBufferGo buf = ([], buf) := by
  unfold processBufferGo
  cases hl : buf.length with
  | zero => rfl
  | succ m => simp [processBufferFuel, h]

/-- Unfolding of `processBufferGo` when the buffer holds a delimiter. -/
lemma processBufferGo_some {buf : List Char} {idx : Nat} (h : indexOfNN buf = some idx) :
    processBufferGo buf =
      (let rawEvent := (buf.take idx).filter (fun c => c ≠ '\r')
       let rest := processBufferGo (buf.drop (idx + 2))
       if trimSpaceL rawEvent = [] then rest
       else (parseSegment rawEvent :: rest.1, rest.2)) := by
  have hb := indexOfNN_bound h
  have hl : ∃ m, buf.length = m + 1 := ⟨buf.length - 1, by omega⟩
  obtain ⟨m, hm⟩ := hl
  unfold processBufferGo
  rw [hm]
  simp only [processBufferFuel, h]
  have h2 : processBufferFuel m (buf.drop (idx + 2))
      = processBufferGo (buf.drop (idx + 2)) := by
    apply processBufferFuel_congr
    simp
    omega
  rw [h2]
  rfl

/-- The incremental parser: append each chunk to the carried buffer, then
run `processBuffer`, as the read loop of `streamDoubaoResponse` does. -/
def runChunksGo (buf : List Char) : List (List Char) → List Frame × List Char
  | [] => ([], buf)
  | c :: cs =>
      let p := processBufferGo (buf ++ c)
      let q := runChunksGo p.2 cs
      (p.1 ++ q.1, q.2)

/-- All frames the Go parser produces for one chunked byte stream,
including the final `processBuffer()` run at end of stream. -/
def parserFrames (chunks : List (List Char)) : List Frame :=
  let r := runChunksGo [] chunks
  r.1 ++ (processBufferGo r.2).1

/-- Modelled from the spec (§4.3, reference algorithm of C6): normalize
every `"\r\n"` to `"\n"`. -/
def normalizeCRLF : List Char → List Char
  | [] => []
  | c :: rest =>
      if c = '\r' ∧ rest.head? = some '\n' then normalizeCRLF rest
      else c :: normalizeCRLF rest

/-- Modelled from the spec (reference algorithm of C6): repeatedly split
off frames at `"\n\n"` after normalization, skipping whitespace-only
segments; incomplete trailing bytes are discarded (fuel-indexed). -/
def splitFramesRefFuel : Nat → List Char → List Frame
  | 0, _ => []
  | fuel + 1, buf =>
      match indexOfNN buf with
      | none => []
      | some idx =>
          let rawEvent := buf.take idx
          let rest := splitFramesRefFuel fuel (buf.drop (idx + 2))
          if trimSpaceL rawEvent = [] then rest
          else parseSegment rawEvent :: rest

/-- Modelled from the spec: the frames of one fully buffered stream. -/
def splitFramesRef (buf : List Char) : List Frame :=
  splitFramesRefFuel buf.length buf

/-- Modelled from the spec (claim C6): append all chunks to one growable
buffer, normalize every CRLF to LF, then split at `"\n\n"`. -/
def referenceFrames (chunks : List (List Char)) : List Frame :=
  splitFramesRef (normalizeCRLF chunks.flatten)

lemma splitFramesRefFuel_congr :
    ∀ (f : Nat) (buf : List Char), buf.length ≤ f →
      splitFramesRefFuel f buf = splitFramesRef buf := by
  intro f
  induction f using Nat.strong_induction_on with
  | _ f ih =>
    intro buf hlen
    unfold splitFramesRef
    cases hf : f with
    | zero =>
        have : buf.length = 0 := by omega
        rw [this]
    | succ f1 =>
        cases hn : indexOfNN buf with
        | none =>
            cases hl : buf.length with
            | zero => simp [splitFramesRefFuel, hn, hl]
            | succ m => simp [splitFramesRefFuel, hn, hl]
        | some idx =>
            have hb := indexOfNN_bound hn
            obtain ⟨m, hm⟩ : ∃ m, buf.length = m + 1 := ⟨buf.length - 1, by omega⟩
            rw [hm]
            simp only [splitFramesRefFuel, hn]
            have h1 : splitFramesRefFuel f1 (buf.drop (idx + 2))
                = splitFramesRef (buf.drop (idx + 2)) := by
              apply ih f1 (by omega)
              simp
              omega
            have h2 : splitFramesRefFuel m (buf.drop (idx + 2))
                = splitFramesRef (buf.drop (idx + 2)) := by
              apply ih m (by omega)
              simp
              omega
            rw [h1, h2]

lemma splitFramesRef_none {buf : List Char} (h : indexOfNN buf = none) :
    splitFramesRef buf = [] := by
  unfold splitFramesRef
  cases hl : buf.length with
  | zero => rfl
  | succ m => simp [splitFramesRefFuel, h]

lemma splitFramesRef_some {buf : List Char} {idx : Nat} (h : indexOfNN buf = some idx) :
    splitFramesRef buf =
      (if trimSpaceL (buf.take idx) = []
       then splitFramesRef (buf.drop (idx + 2))
       else parseSegment (buf.take idx) :: splitFramesRef (buf.drop (idx + 2))) := by
  have hb := indexOfNN_bound h
  obtain ⟨m, hm⟩ : ∃ m, buf.length = m + 1 := ⟨buf.length - 1, by omega⟩
  unfold splitFramesRef
  rw [hm]
  simp only [splitFramesRefFuel, h]
  have h2 : splitFramesRefFuel m (buf.drop (idx + 2))
      = splitFramesRef (buf.drop (idx + 2)) := by
    apply splitFramesRefFuel_congr
    simp
    omega
  rw [h2]
  rfl

/-- Projection form of `processBufferGo_some` for the emitted frames. -/
lemma processBufferGo_some_fst {buf : List Char} {idx : Nat}
    (h : indexOfNN buf = some idx) :
    (processBufferGo buf).1
      = (if trimSpaceL ((buf.take idx).filter (fun c => c ≠ '\r')) = []
         then (processBufferGo (buf.drop (idx + 2))).1
         else parseSegment ((buf.take idx).filter (fun c => c ≠ '\r'))
                :: (processBufferGo (buf.drop (idx + 2))).1) := by
  rw [processBufferGo_some h]
  by_cases htrim : trimSpaceL ((buf.take idx).filter (fun c => c ≠ '\r')) = []
  · rw [if_pos htrim, if_pos htrim]
  · rw [if_neg htrim, if_neg htrim]

/-- Projection form of `processBufferGo_some` for the remaining buffer. -/
lemma processBufferGo_some_snd {buf : List Char} {idx : Nat}
    (h : indexOfNN buf = some idx) :
    (processBufferGo buf).2 = (processBufferGo (buf.drop (idx + 2))).2 := by
  rw [processBufferGo_some h]
  by_cases htrim : trimSpaceL ((buf.take idx).filter (fun c => c ≠ '\r')) = []
  · rw [if_pos htrim]
  · rw [if_neg htrim]

lemma indexOfNN_append {b : List Char} {i : Nat} (x : List Char)
    (h : indexOfNN b = some i) : indexOfNN (b ++ x) = some i := by
  induction b generalizing i with
  | nil => simp [indexOfNN] at h
  | cons c rest ih =>
    rw [indexOfNN] at h
    rw [List.cons_append, indexOfNN]
    by_cases hc : c = '\n' ∧ rest.head? = some '\n'
    · rw [if_pos hc] at h
      have hrest_ne : rest ≠ [] := by
        intro hr
        rw [hr] at hc
        simp at hc
      have hhead : (rest ++ x).head? = rest.head? := by
        cases rest with
        | nil => exact absurd rfl hrest_ne
        | cons a as => rfl
      rw [if_pos ⟨hc.1, by rw [hhead]; exact hc.2⟩]
      exact h
    · rw [if_neg hc] at h
      cases hrest : indexOfNN rest with
      | none => rw [hrest] at h; simp at h
      | some j =>
        rw [hrest] at h
        simp at h
        have hrest_ne : rest ≠ [] := by
          intro hr
          rw [hr] at hrest
          simp [indexOfNN] at hrest
        have hhead : (rest ++ x).head? = rest.head? := by
          cases rest with
          | nil => exact absurd rfl hrest_ne
          | cons a as => rfl
        rw [if_neg (by rw [hhead]; exact hc)]
        rw [ih hrest]
        simp [h]

lemma processBufferGo_append_snd (x : List Char) :
    ∀ (n : Nat) (b : List Char), b.length ≤ n →
      (processBufferGo (b ++ x)).2
        = (processBufferGo ((processBufferGo b).2 ++ x)).2 := by
  intro n
  induction n with
  | zero =>
    intro b hlen
    have hb : b = [] := List.length_eq_zero.mp (by omega)
    subst hb
    rw [processBufferGo_none (show indexOfNN ([] : List Char) = none from rfl)]
  | succ n ih =>
    intro b hlen
    cases hn : indexOfNN b with
    | none => rw [processBufferGo_none hn]
    | some idx =>
        have hb := indexOfNN_bound hn
        have hnx : indexOfNN (b ++ x) = some idx := indexOfNN_append x hn
        rw [processBufferGo_some_snd hnx, processBufferGo_some_snd hn,
          List.drop_append_of_le_length (by omega)]
        exact ih (b.drop (idx + 2)) (by simp; omega)

lemma processBufferGo_append_fst (x : List Char) :
    ∀ (n : Nat) (b : List Char), b.length ≤ n →
      (processBufferGo (b ++ x)).1
        = (processBufferGo b).1 ++ (processBufferGo ((processBufferGo b).2 ++ x)).1 := by
  intro n
  induction n with
  | zero =>
    intro b hlen
    have hb : b = [] := List.length_eq_zero.mp (by omega)
    subst hb
    rw [processBufferGo_none (show indexOfNN ([] : List Char) = none from rfl)]
    simp
  | succ n ih =>
    intro b hlen
    cases hn : indexOfNN b with
    | none =>
      rw [processBufferGo_none hn]
      simp
    | some idx =>
        have hb := indexOfNN_bound hn
        have hnx : indexOfNN (b ++ x) = some idx := indexOfNN_append x hn
        have htake : (b ++ x).take idx = b.take idx :=
          List.take_append_of_le_length (by omega)
        have hdrop : (b ++ x).drop (idx + 2) = b.drop (idx + 2) ++ x :=
          List.drop_append_of_le_length (by omega)
        rw [processBufferGo_some_fst hnx, processBufferGo_some_fst hn,
          processBufferGo_some_snd hn, htake, hdrop]
        have hrec := ih (b.drop (idx + 2)) (by simp; omega)
        rw [hrec]
        by_cases htrim : trimSpaceL ((b.take idx).filter (fun c => c ≠ '\r')) = []
        · rw [if_pos htrim, if_pos htrim]
        · rw [if_neg htrim, if_neg htrim, List.cons_append]

lemma runChunksGo_frames (chunks : List (List Char)) :
    ∀ buf : List Char,
      (runChunksGo buf chunks).1 ++ (processBufferGo (runChunksGo buf chunks).2).1
          = (processBufferGo (buf ++ chunks.flatten)).1
        ∧ (processBufferGo (runChunksGo buf chunks).2).2
          = (processBufferGo (buf ++ chunks.flatten)).2 := by
  induction chunks with
  | nil =>
    intro buf
    simp [runChunksGo]
  | cons c cs ih =>
    intro buf
    have hfst := processBufferGo_append_fst cs.flatten (buf ++ c).length (buf ++ c) le_rfl
    have hsnd := processBufferGo_append_snd cs.flatten (buf ++ c).length (buf ++ c) le_rfl
    have hflat : (c :: cs).flatten = c ++ cs.flatten := rfl
    constructor
    · show (processBufferGo (buf ++ c)).1 ++ (runChunksGo (processBufferGo (buf ++ c)).2 cs).1
          ++ (processBufferGo (runChunksGo (processBufferGo (buf ++ c)).2 cs).2).1
        = (processBufferGo (buf ++ (c :: cs).flatten)).1
      rw [hflat, ← List.append_assoc, hfst, List.append_assoc,
        (ih (processBufferGo (buf ++ c)).2).1]
    · show (processBufferGo (runChunksGo (processBufferGo (buf ++ c)).2 cs).2).2
        = (processBufferGo (buf ++ (c :: cs).flatten)).2
      rw [hflat, ← List.append_assoc, hsnd, (ih (processBufferGo (buf ++ c)).2).2]

/-- The chunked parser equals one batch run on the whole stream. -/
lemma parserFrames_eq_batch (chunks : List (List Char)) :
    parserFrames chunks = (processBufferGo chunks.flatten).1 := by
  unfold parserFrames
  have h := (runChunksGo_frames chunks []).1
  simpa using h

lemma normalizeCRLF_crFree (l : List Char) (h : ∀ c ∈ l, c ≠ '\r') :
    normalizeCRLF l = l := by
  induction l with
  | nil => rfl
  | cons c rest ih =>
    rw [normalizeCRLF]
    have hc : ¬ (c = '\r' ∧ rest.head? = some '\n') := by
      intro hcr
      exact h c (List.mem_cons_self c rest) hcr.1
    rw [if_neg hc, ih (fun a ha => h a (List.mem_cons_of_mem c ha))]

lemma processBufferGo_crFree :
    ∀ (n : Nat) (buf : List Char), buf.length ≤ n → (∀ c ∈ buf, c ≠ '\r') →
      (processBufferGo buf).1 = splitFramesRef buf := by
  intro n
  induction n with
  | zero =>
    intro buf hlen _
    have hb : buf = [] := List.length_eq_zero.mp (by omega)
    subst hb
    rw [processBufferGo_none (show indexOfNN ([] : List Char) = none from rfl),
      splitFramesRef_none (show indexOfNN ([] : List Char) = none from rfl)]
  | succ n ih =>
    intro buf hlen hcr
    cases hn : indexOfNN buf with
    | none => rw [processBufferGo_none hn, splitFramesRef_none hn]
    | some idx =>
        have hb := indexOfNN_bound hn
        have hfilter : (buf.take idx).filter (fun c => c ≠ '\r') = buf.take idx := by
          rw [List.filter_eq_self]
          intro a ha
          simpa using hcr a (List.take_subset idx buf ha)
        rw [processBufferGo_some_fst hn, splitFramesRef_some hn, hfilter]
        have hdrop := ih (buf.drop (idx + 2)) (by simp; omega)
          (fun a ha => hcr a (List.drop_subset (idx + 2) buf ha))
        rw [hdrop]

/-- The `"\r\n\r\n"`-delimited stream of the C6 counterexample. -/
def crlfStream : List Char := "event: x\r\ndata: 1\r\n\r\n".data

/-- C6 counterexample: on a stream whose single frame is delimited by
`"\r\n\r\n"`, the parser finds no `"\n\n"` in the raw buffer and emits no
frame, while the reference algorithm (normalize CRLF first, then split)
yields the frame `(x, 1)` — the two disagree. -/
theorem C6_counterexample :
    parserFrames [crlfStream] = []
    ∧ referenceFrames [crlfStream] = [⟨"x".data, "1".data⟩]
    ∧ parserFrames [crlfStream] ≠ referenceFrames [crlfStream] := by decide

/-- C6 amended: the parser searches the *raw* buffer for `"\n\n"` and
strips `'\r'` only inside each already-delimited frame, so it need not
agree with the normalize-first reference on streams containing carriage
returns; on every chunked stream without carriage returns (under any
chunking) it produces exactly the reference frames. -/
theorem C6_amended (chunks : List (List Char))
    (h : ∀ c ∈ chunks.flatten, c ≠ '\r') :
    parserFrames chunks = referenceFrames chunks := by
  rw [parserFrames_eq_batch]
  unfold referenceFrames
  rw [normalizeCRLF_crFree chunks.flatten h]
  exact processBufferGo_crFree chunks.flatten.length chunks.flatten le_rfl h

/-- Witness for C6 amended on a concrete chunked CR-free stream. -/
theorem C6_amended_witness :
    parserFrames ["event: x\ndata: 1\n".data, "\ndata: 2\n\n".data]
      = referenceFrames ["event: x\ndata: 1\n".data, "\ndata: 2\n\n".data] :=
  C6_amended ["event: x\ndata: 1\n".data, "\ndata: 2\n\n".data] (by decide)

/-! ## Language table and directive resolution (go/main.go) -/

/-- A JSON value already decoded by the host runtime, at the granularity
the directive resolver inspects: a string, a number (Go decodes JSON
numbers to float64; integral values are modelled), an object, or any
other value (bool, null, array) on which both `toString` and the map type
assertion fail. -/
inductive JVal where
  | jstr : String → JVal
  | jnum : Int → JVal
  | jobj : List (String × JVal) → JVal
  | jother : JVal

/-- Model of `toString` from go/main.go on decoded JSON values: strings
pass through, numbers are rendered in decimal, everything else fails. -/
def toStringGo : JVal → Option String
  | JVal.jstr s => some s
  | JVal.jnum n => some (toString n)
  | _ => none

/-- Model of `strings.ToLower` (rune-wise case folding). -/
def lowerStr (s : String) : String := ⟨s.data.map Char.toLower⟩

/-- Model of `strings.TrimSpace` on `String`. -/
def trimSpace (s : String) : String := ⟨trimSpaceL s.data⟩

/-- One entry of the language table. -/
structure LanguageEntry where
  code : String
  names : List String
deriving DecidableEq

/-- The language table `languages` from go/main.go. -/
def languages : List LanguageEntry := [
  ⟨"zh", ["中文（简体）", "simplified chinese", "简体中文", "chinese", "zh"]⟩,
  ⟨"zh-Hant", ["中文（繁体）", "traditional chinese", "繁體中文", "zh-hant"]⟩,
  ⟨"en", ["英语", "english", "en"]⟩,
  ⟨"ja", ["日语", "japanese", "日本語", "ja"]⟩,
  ⟨"ko", ["韩语", "korean", "한국어", "ko"]⟩,
  ⟨"de", ["德语", "german", "deutsch", "de"]⟩,
  ⟨"fr", ["法语", "french", "français", "fr"]⟩,
  ⟨"es", ["西班牙语", "spanish", "español", "es"]⟩,
  ⟨"it", ["意大利语", "italian", "italiano", "it"]⟩,
  ⟨"pt", ["葡萄牙语", "portuguese", "português", "pt"]⟩,
  ⟨"ru", ["俄语", "russian", "русский", "ru"]⟩,
  ⟨"th", ["泰语", "thai", "ไทย", "th"]⟩,
  ⟨"vi", ["越南语", "vietnamese", "tiếng việt", "vi"]⟩,
  ⟨"ar", ["阿拉伯语", "arabic", "العربية", "ar"]⟩,
  ⟨"cs", ["捷克语", "czech", "čeština", "cs"]⟩,
  ⟨"da", ["丹麦语", "danish", "dansk", "da"]⟩,
  ⟨"fi", ["芬兰语", "finnish", "suomi", "fi"]⟩,
  ⟨"hr", ["克罗地亚语", "croatian", "hrvatski", "hr"]⟩,
  ⟨"hu", ["匈牙利语", "hungarian", "magyar", "hu"]⟩,
  ⟨"id", ["印尼语", "indonesian", "bahasa indonesia", "id"]⟩,
  ⟨"ms", ["马来语", "malay", "bahasa melayu", "ms"]⟩,
  ⟨"nb", ["挪威布克莫尔语", "norwegian bokmål", "norsk bokmål", "nb"]⟩,
  ⟨"nl", ["荷兰语", "dutch", "nederlands", "nl"]⟩,
  ⟨"pl", ["波兰语", "polish", "polski", "pl"]⟩,
  ⟨"ro", ["罗马尼亚语", "romanian", "română", "ro"]⟩,
  ⟨"sv", ["瑞典语", "swedish", "svenska", "sv"]⟩,
  ⟨"tr", ["土耳其语", "turkish", "türkçe", "tr"]⟩,
  ⟨"uk", ["乌克兰语", "ukrainian", "українська", "uk"]⟩]

/-- Model of `getLanguageCode` from go/main.go: empty input yields empty;
otherwise the input is lowercased and trimmed and compared against every
lowercased table name; the first matching entry's code is returned, and an
unrecognized value is returned unchanged. -/
def getLanguageCode (lang : String) : String :=
  if lang = "" then ""
  else
    let normalized := trimSpace (lowerStr lang)
    match languages.find? (fun e => e.names.any (fun n => normalized == lowerStr n)) with
    | some e => e.code
    | none => lang

/-- The resolved directive `translationOptions` from go/main.go. -/
structure TranslationOptions where
  sourceLanguage : Option String
  targetLanguage : String
deriving DecidableEq, Repr

/-- Model of `CONFIG.DefaultTargetLanguage` from go/main.go. -/
def defaultTargetLanguage : String := "zh"

/-- The first block of `applyLanguageOption` from go/main.go: overwrite
`source_language` when present and normalizing to non-empty. -/
def applyLanguageSource (opts : TranslationOptions) (values : List (String × String)) :
    TranslationOptions :=
  match values.lookup "source_language" with
  | some rawSource =>
      let converted := getLanguageCode rawSource
      if converted ≠ "" then { opts with sourceLanguage := some converted } else opts
  | none => opts

/-- The second block of `applyLanguageOption` from go/main.go: overwrite
`target_language` when present and normalizing to non-empty. -/
def applyLanguageTarget (opts : TranslationOptions) (values : List (String × String)) :
    TranslationOptions :=
  match values.lookup "target_language" with
  | some rawTarget =>
      let converted := getLanguageCode rawTarget
      if converted ≠ "" then { opts with targetLanguage := converted } else opts
  | none => opts

/-- Model of `applyLanguageOption` from go/main.go, acting on the
key→string map extracted from the system instruction (by
`parseTranslationJSON` or `parseTranslationKV`): each directive field is
overwritten only when present and normalizing to non-empty; the two
blocks run in sequence. -/
def applyLanguageOption (opts : TranslationOptions) (values : List (String × String)) :
    TranslationOptions :=
  applyLanguageTarget (applyLanguageSource opts values) values

/-- Model of `parseTranslationOptions` from go/main.go with the string
parsing stage abstracted: `values` is the key→string map the JSON stage
(`parseTranslationJSON`, keeping the `toString`-convertible entries) or,
on JSON failure, the regex stage (`parseTranslationKV`) produced from the
system instruction; an empty instruction yields the empty map.  The
options start from the configured default target language and no source
language. -/
def parseTranslationOptionsFromValues (values : List (String × String)) :
    TranslationOptions :=
  applyLanguageOption ⟨none, defaultTargetLanguage⟩ values

/-- Model of `extractCandidate` from go/main.go: a non-object source is
skipped; an object nesting an object under `translation_options` yields
that nested object, otherwise the object itself is the candidate. -/
def extractCandidate : JVal → Option (List (String × JVal))
  | JVal.jobj fields =>
      match fields.lookup "translation_options" with
      | some (JVal.jobj sub) => some sub
      | _ => some fields
  | _ => none

/-- The first if-block of the loop body of `mergeTranslationOverrides`
from go/main.go: overwrite `source_language` from the candidate when it
is string-convertible and normalizes to non-empty. -/
def applySourceOverride (target : TranslationOptions) (candidate : List (String × JVal)) :
    TranslationOptions :=
  match candidate.lookup "source_language" with
  | some rawSource =>
      match toStringGo rawSource with
      | some str =>
          let converted := getLanguageCode str
          if converted ≠ "" then { target with sourceLanguage := some converted }
          else target
      | none => target
  | none => target

/-- The second if-block of the loop body of `mergeTranslationOverrides`
from go/main.go: overwrite `target_language` likewise. -/
def applyTargetOverride (target : TranslationOptions) (candidate : List (String × JVal)) :
    TranslationOptions :=
  match candidate.lookup "target_language" with
  | some rawTarget =>
      match toStringGo rawTarget with
      | some str =>
          let converted := getLanguageCode str
          if converted ≠ "" then { target with targetLanguage := converted } else target
      | none => target
  | none => target

/-- Model of the per-source body of the loop in `mergeTranslationOverrides`
from go/main.go: skip a source without a candidate, otherwise run the two
field blocks in sequence. -/
def mergeOverride (target : TranslationOptions) (src : JVal) : TranslationOptions :=
  match extractCandidate src with
  | none => target
  | some candidate => applyTargetOverride (applySourceOverride target candidate) candidate

/-- Model of `mergeTranslationOverrides` from go/main.go: the override
sources (request-level `translation_options`, then `metadata`) are applied
in call order. -/
def mergeTranslationOverrides (target : TranslationOptions) (sources : List JVal) :
    TranslationOptions :=
  sources.foldl mergeOverride target

/-- The full directive resolution pipeline of `handleChatCompletions` and
`handleResponses`: resolve the system instruction, then merge the override
sources in call order. -/
def resolveDirective (values : List (String × String)) (sources : List JVal) :
    TranslationOptions :=
  mergeTranslationOverrides (parseTranslationOptionsFromValues values) sources

/-- The normalized value a candidate map contributes for `field`, when it
specifies that field with a value normalizing to non-empty (specification
vocabulary of claim C7). -/
def candidateField (candidate : List (String × JVal)) (field : String) : Option String :=
  match candidate.lookup field with
  | some v =>
      match toStringGo v with
      | some str =>
          if getLanguageCode str ≠ "" then some (getLanguageCode str) else none
      | none => none
  | none => none

/-- The normalized value an override source contributes for `field`
(specification vocabulary of claim C7). -/
def overrideField (src : JVal) (field : String) : Option String :=
  match extractCandidate src with
  | none => none
  | some candidate => candidateField candidate field

/-- The normalized value of the *last* override source specifying `field`
(specification vocabulary of claim C7). -/
def lastOverride (sources : List JVal) (field : String) : Option String :=
  sources.foldl
    (fun acc src =>
      match overrideField src field with
      | some v => some v
      | none => acc)
    none

/-- The normalized value the system instruction contributes for `field`
(specification vocabulary of claim C7). -/
def instructionField (values : List (String × String)) (field : String) : Option String :=
  match values.lookup field with
  | some raw => if getLanguageCode raw ≠ "" then some (getLanguageCode raw) else none
  | none => none

/-! ### Directive resolution lemmas (claim C7) -/

lemma applySourceOverride_target (t : TranslationOptions) (c : List (String × JVal)) :
    (applySourceOverride t c).targetLanguage = t.targetLanguage := by
  unfold applySourceOverride
  split
  · split
    · rename_i str heq
      by_cases h : getLanguageCode str ≠ "" <;> simp [h]
    · rfl
  · rfl

lemma applySourceOverride_source (t : TranslationOptions) (c : List (String × JVal)) :
    (applySourceOverride t c).sourceLanguage
      = (match candidateField c "source_language" with
         | some v => some v
         | none => t.sourceLanguage) := by
  unfold applySourceOverride candidateField
  split
  · split
    · rename_i str heq
      by_cases h : getLanguageCode str ≠ "" <;> simp [h]
    · rfl
  · rfl

lemma applyTargetOverride_source (t : TranslationOptions) (c : List (String × JVal)) :
    (applyTargetOverride t c).sourceLanguage = t.sourceLanguage := by
  unfold applyTargetOverride
  split
  · split
    · rename_i str heq
      by_cases h : getLanguageCode str ≠ "" <;> simp [h]
    · rfl
  · rfl

lemma applyTargetOverride_target (t : TranslationOptions) (c : List (String × JVal)) :
    (applyTargetOverride t c).targetLanguage
      = (candidateField c "target_language").getD t.targetLanguage := by
  unfold applyTargetOverride candidateField
  split
  · split
    · rename_i str heq
      by_cases h : getLanguageCode str ≠ "" <;> simp [h]
    · rfl
  · rfl

lemma mergeOverride_target (t : TranslationOptions) (src : JVal) :
    (mergeOverride t src).targetLanguage
      = (overrideField src "target_language").getD t.targetLanguage := by
  unfold mergeOverride overrideField
  cases extractCandidate src with
  | none => rfl
  | some c => rw [applyTargetOverride_target, applySourceOverride_target]

lemma mergeOverride_source (t : TranslationOptions) (src : JVal) :
    (mergeOverride t src).sourceLanguage
      = (match overrideField src "source_language" with
         | some v => some v
         | none => t.sourceLanguage) := by
  unfold mergeOverride overrideField
  cases extractCandidate src with
  | none => rfl
  | some c => rw [applyTargetOverride_source, applySourceOverride_source]

lemma applyLanguageSource_target (t : TranslationOptions) (values : List (String × String)) :
    (applyLanguageSource t values).targetLanguage = t.targetLanguage := by
  unfold applyLanguageSource
  split
  · rename_i raw heq
    by_cases h : getLanguageCode raw ≠ "" <;> simp [h]
  · rfl

lemma applyLanguageSource_source (t : TranslationOptions) (values : List (String × String)) :
    (applyLanguageSource t values).sourceLanguage
      = (match instructionField values "source_language" with
         | some v => some v
         | none => t.sourceLanguage) := by
  unfold applyLanguageSource instructionField
  split
  · rename_i raw heq
    by_cases h : getLanguageCode raw ≠ "" <;> simp [h]
  · rfl

lemma applyLanguageTarget_source (t : TranslationOptions) (values : List (String × String)) :
    (applyLanguageTarget t values).sourceLanguage = t.sourceLanguage := by
  unfold applyLanguageTarget
  split
  · rename_i raw heq
    by_cases h : getLanguageCode raw ≠ "" <;> simp [h]
  · rfl

lemma applyLanguageTarget_target (t : TranslationOptions) (values : List (String × String)) :
    (applyLanguageTarget t values).targetLanguage
      = (instructionField values "target_language").getD t.targetLanguage := by
  unfold applyLanguageTarget instructionField
  split
  · rename_i raw heq
    by_cases h : getLanguageCode raw ≠ "" <;> simp [h]
  · rfl

lemma lastOverride_foldl (f : String) (l : List JVal) :
    ∀ acc : Option String,
      l.foldl
          (fun acc src =>
            match overrideField src f with
            | some v => some v
            | none => acc)
          acc
        = (match lastOverride l f with
           | some v => some v
           | none => acc) := by
  induction l with
  | nil => intro acc; rfl
  | cons s rest ih =>
    intro acc
    have hcons : lastOverride (s :: rest) f
        = rest.foldl
            (fun acc src =>
              match overrideField src f with
              | some v => some v
              | none => acc)
            (match overrideField s f with
             | some v => some v
             | none => none) := rfl
    simp only [List.foldl_cons]
    rw [ih, hcons, ih]
    cases overrideField s f <;> cases lastOverride rest f <;> rfl

lemma lastOverride_cons (f : String) (s : JVal) (rest : List JVal) :
    lastOverride (s :: rest) f
      = (match lastOverride rest f with
         | some v => some v
         | none => overrideField s f) := by
  unfold lastOverride
  simp only [List.foldl_cons]
  rw [lastOverride_foldl]
  cases overrideField s f <;> rfl

lemma mergeTranslationOverrides_target (sources : List JVal) :
    ∀ t : TranslationOptions,
      (mergeTranslationOverrides t sources).targetLanguage
        = (lastOverride sources "target_language").getD t.targetLanguage := by
  induction sources with
  | nil => intro t; rfl
  | cons s rest ih =>
    intro t
    show (mergeTranslationOverrides (mergeOverride t s) rest).targetLanguage = _
    rw [ih, mergeOverride_target, lastOverride_cons]
    cases hrest : lastOverride rest "target_language" <;>
      cases hself : overrideField s "target_language" <;> simp

lemma mergeTranslationOverrides_source (sources : List JVal) :
    ∀ t : TranslationOptions,
      (mergeTranslationOverrides t sources).sourceLanguage
        = (match lastOverride sources "source_language" with
           | some v => some v
           | none => t.sourceLanguage) := by
  induction sources with
  | nil => intro t; rfl
  | cons s rest ih =>
    intro t
    show (mergeTranslationOverrides (mergeOverride t s) rest).sourceLanguage = _
    rw [ih, mergeOverride_source, lastOverride_cons]
    cases hrest : lastOverride rest "source_language" <;>
      cases hself : overrideField s "source_language" <;> simp

/-- C7.  Directive override monotonicity: each resolved field equals the
normalized value of the last override source specifying it with a value
normalizing to non-empty; failing that, the value the system instruction
contributes; failing that, the configured default `"zh"` for the target
language and absence for the source language.  Overwrites are whole-field.
(The free-text parsing of the instruction into its key→string map is
abstracted as `values`.) -/
theorem C7_override_monotonic (values : List (String × String)) (sources : List JVal) :
    (resolveDirective values sources).targetLanguage
      = ((lastOverride sources "target_language").getD
          ((instructionField values "target_language").getD defaultTargetLanguage))
    ∧ (resolveDirective values sources).sourceLanguage
      = (match lastOverride sources "source_language" with
         | some v => some v
         | none => instructionField values "source_language") := by
  constructor
  · show (mergeTranslationOverrides (parseTranslationOptionsFromValues values)
        sources).targetLanguage = _
    rw [mergeTranslationOverrides_target]
    have hbase : (parseTranslationOptionsFromValues values).targetLanguage
        = (instructionField values "target_language").getD defaultTargetLanguage := by
      unfold parseTranslationOptionsFromValues applyLanguageOption
      rw [applyLanguageTarget_target, applyLanguageSource_target]
    rw [hbase]
  · show (mergeTranslationOverrides (parseTranslationOptionsFromValues values)
        sources).sourceLanguage = _
    rw [mergeTranslationOverrides_source]
    have hbase : (parseTranslationOptionsFromValues values).sourceLanguage
        = instructionField values "source_language" := by
      unfold parseTranslationOptionsFromValues applyLanguageOption
      rw [applyLanguageTarget_source, applyLanguageSource_source]
      cases instructionField values "source_language" <;> rfl
    rw [hbase]

/-- C10.  Language normalization returns any unrecognized non-empty
string unchanged — including one that lowers and trims to empty, which
matches no table name; such a whitespace-only value therefore passes the
normalizes-to-non-empty guard of the override merge, and the resolved
target language can be a whitespace-only string. -/
theorem C10_whitespace_override (s : String) (hne : s ≠ "")
    (htrim : trimSpace (lowerStr s) = "") :
    getLanguageCode s = s
    ∧ ∀ opts : TranslationOptions,
        (mergeTranslationOverrides opts
          [JVal.jobj [("target_language", JVal.jstr s)]]).targetLanguage = s := by
  have hfind : languages.find?
      (fun e => e.names.any (fun n => ("" : String) == lowerStr n)) = none := by decide
  have hcode : getLanguageCode s = s := by
    unfold getLanguageCode
    rw [if_neg hne]
    simp only [htrim]
    rw [hfind]
  refine ⟨hcode, ?_⟩
  intro opts
  show (mergeOverride opts (JVal.jobj [("target_language", JVal.jstr s)])).targetLanguage = s
  rw [mergeOverride_target]
  have hov : overrideField (JVal.jobj [("target_language", JVal.jstr s)]) "target_language"
      = some s := by
    unfold overrideField extractCandidate candidateField
    simp [List.lookup, toStringGo, hcode, hne]
  rw [hov]
  rfl

/-- Witness for C10 at the single-space string. -/
theorem C10_whitespace_override_witness :
    getLanguageCode " " = " "
    ∧ (mergeTranslationOverrides ⟨none, "zh"⟩
        [JVal.jobj [("target_language", JVal.jstr " ")]]).targetLanguage = " " :=
  ⟨(C10_whitespace_override " " (by decide) (by decide)).1,
   (C10_whitespace_override " " (by decide) (by decide)).2 ⟨none, "zh"⟩⟩

/-! ## Upstream error propagation (go/main.go, claim C8) -/

/-- An upstream response body: its raw text, plus the outcome of
`json.Unmarshal` into a string-keyed map (`none` when the body is not a
JSON object). -/
structure UpstreamBody where
  raw : String
  parsedObj : Option (List (String × JVal))

/-- Model of `extractUpstreamError` from go/main.go: prefer the JSON
`error.message` field when it is string-convertible, else the trimmed raw
body, else the generic phrase. -/
def extractUpstreamError (body : UpstreamBody) : String :=
  let fromJson :=
    match body.parsedObj with
    | some fields =>
        match fields.lookup "error" with
        | some (JVal.jobj errFields) =>
            match errFields.lookup "message" with
            | some v => toStringGo v
            | none => none
        | _ => none
    | none => none
  match fromJson with
  | some msg => msg
  | none =>
      let trimmed := trimSpace body.raw
      if trimmed ≠ "" then trimmed else "上游接口错误"

/-- Lowercase hexadecimal digit. -/
def hexDigit (n : Nat) : Char :=
  if n < 10 then Char.ofNat (48 + n) else Char.ofNat (87 + n)

/-- Per-character escaping of Go `json.Marshal` on strings: quote,
backslash, newline, carriage return, tab, the HTML-sensitive characters,
other control characters, and the Unicode line separators. -/
def escapeChar (c : Char) : List Char :=
  if c = '"' then ['\\', '"']
  else if c = '\\' then ['\\', '\\']
  else if c = '\n' then ['\\', 'n']
  else if c = '\r' then ['\\', 'r']
  else if c = '\t' then ['\\', 't']
  else if c = '<' then "\\u003c".data
  else if c = '>' then "\\u003e".data
  else if c = '&' then "\\u0026".data
  else if c.toNat < 32 then
    "\\u00".data ++ [hexDigit (c.toNat / 16), hexDigit (c.toNat % 16)]
  else if c.toNat = 8232 then "\\u2028".data
  else if c.toNat = 8233 then "\\u2029".data
  else [c]

/-- Model of `escapeJSONString` from go/main.go (`json.Marshal` of the
string with the wrapping quotes trimmed). -/
def escapeJSONString (input : String) : String :=
  ⟨(input.data.map escapeChar).flatten⟩

/-- Model of `formatUpstreamError` from go/main.go: substitute the escaped
message into `upstreamErrorTemplate`, defaulting an empty message. -/
def formatUpstreamError (message : String) : String :=
  let m := if message = "" then "未知错误" else message
  "\x7b\"error\":\x7b\"message\":\"上游 API 错误：" ++ escapeJSONString m
    ++ "\",\"type\":\"api_error\"\x7d\x7d"

/-- The upstream-error decision of `handleChatCompletions` composed with
`sendDoubaoRequest` in go/main.go: a non-2xx upstream status is turned
into an error by `sendDoubaoRequest` (which reads the body and extracts
the message), and the handler then answers HTTP 500
(`http.StatusInternalServerError`) with the formatted message; a 2xx
status continues normal processing (`none` here). -/
def chatCompletionsUpstreamError (status : Nat) (body : UpstreamBody) :
    Option (Nat × String) :=
  if 200 ≤ status ∧ status < 300 then none
  else some (500, formatUpstreamError (extractUpstreamError body))

/-- Contiguous-substring test used to state the C8 containment. -/
def containsSubL (needle : List Char) : List Char → Bool
  | [] => needle.isEmpty
  | c :: rest => needle.isPrefixOf (c :: rest) || containsSubL needle rest

/-- String form of `containsSubL`. -/
def containsSubstr (hay needle : String) : Bool := containsSubL needle.data hay.data

/-- The Scenario E upstream body. -/
def quotaBody : UpstreamBody :=
  ⟨"\x7b\"error\":\x7b\"message\":\"quota exceeded\"\x7d\x7d",
   some [("error", JVal.jobj [("message", JVal.jstr "quota exceeded")])]⟩

/-- C8 evaluated at its failing input: for upstream status 429 with body
`error.message = "quota exceeded"`, the caller envelope does contain the
literal text `quota exceeded`, but the response status is 500, not the
available upstream status 429 — `sendDoubaoRequest` converts every
non-2xx response into an error before the status-passthrough branch of
`handleChatCompletions` can run, leaving that branch unreachable. -/
theorem C8_failing_eval :
    chatCompletionsUpstreamError 429 quotaBody
      = some (500, formatUpstreamError "quota exceeded")
    ∧ containsSubstr (formatUpstreamError "quota exceeded") "quota exceeded" = true
    ∧ (chatCompletionsUpstreamError 429 quotaBody).map Prod.fst ≠ some 429 := by
  decide

end DoubaoProxy
